import Mathlib

/-!
# Verification of the worked-area engine (`src/app.py`)

Shallow embedding of the core of the application: trajectory segmentation
(`linhas` loop, src/app.py lines 184–204), the area resolver
(lines 208–210), the per-farm statistics (lines 215–220) and the
insufficient-data guard (lines 157–159).

Conventions of the embedding:
* A GPS fix row keeps its equipment id (`cd_equipamento`), its timestamp
  (`dt_hr_local_inicial`, modelled in whole seconds as an integer) and its
  projected position (`row.geometry`, modelled as an integer grid point).
  The Python loop stores only `row.geometry` in `linha_atual`; the embedding
  stores the whole row and projects to the position when the `LineString`
  is formed, which leaves the emitted geometry unchanged while letting us
  speak about the timestamps of a trajectory.
* Planar geometries (shapely polygons) are modelled as finite sets of unit
  grid cells; `unary_union`, `intersection` and `difference` are the
  corresponding finite-set operations and `.area` is the number of cells.
  This models exactly the boolean set algebra and area additivity that the
  code obtains from the geometry library.
* Float arithmetic on areas is modelled with exact rationals; a float
  division whose denominator is zero (numpy yields `nan`/`inf` plus a
  runtime warning) is modelled as `none : Option ℚ`.
-/

namespace AreaTrabalhada

/-- A projected position (`row.geometry` after `to_crs(epsg=31983)`),
modelled as a grid point with integer coordinates. -/
abbrev Pos : Type := ℤ × ℤ

/-- One productive GPS fix row of the Solinftec CSV after filtering:
equipment id `cd_equipamento`, timestamp `dt_hr_local_inicial` in seconds,
projected position. -/
structure Fix where
  equip : ℕ
  time : ℤ
  pos : Pos
deriving DecidableEq

/-- The inner walk of the `linhas` construction (src/app.py lines 190–204)
over the remaining rows of one equipment group. `run` is `linha_atual`
(non-empty once the first row was seen), `lastT` is `ultimo_tempo`.
A row whose time delta to `ultimo_tempo` is `≤ g` (`TEMPO_MAX_SEG`) is
appended to the current run; otherwise the run is emitted if it has at
least 2 positions and a fresh run starts at the row.  After the last row
the pending run is emitted if it has at least 2 positions. -/
def segLoop (g : ℤ) : List Fix → List Fix → ℤ → List (List Fix)
  | [], run, _ => if 2 ≤ run.length then [run] else []
  | r :: rest, run, lastT =>
    if r.time - lastT ≤ g then
      segLoop g rest (run ++ [r]) r.time
    else
      (if 2 ≤ run.length then [run] else []) ++ segLoop g rest [r] r.time

/-- Segmentation of one (already time-sorted) equipment group: the first
row opens `linha_atual` (the `ultimo_tempo is None` branch), the rest is
walked by `segLoop`. -/
def segGroup (g : ℤ) : List Fix → List (List Fix)
  | [] => []
  | r :: rest => segLoop g rest [r] r.time

/-- The distinct equipment ids of the input, in order of first appearance
(`gdf_pts.groupby("cd_equipamento")`; the groups' relative order is not
relied on by any claim). -/
def eqKeys (fixes : List Fix) : List ℕ :=
  (fixes.map Fix.equip).dedup

/-- Timestamp comparison between two fix rows, the sort key of
`sort_values("dt_hr_local_inicial")`. -/
def timeLE (a b : Fix) : Prop :=
  a.time ≤ b.time

instance : DecidableRel timeLE := fun a b => Int.decLe a.time b.time

instance : IsTotal Fix timeLE := ⟨fun a b => Int.le_total a.time b.time⟩

instance : IsTrans Fix timeLE := ⟨fun _ _ _ => Int.le_trans⟩

/-- One equipment group, sorted by timestamp
(`grupo.sort_values("dt_hr_local_inicial")`, a stable sort on the
timestamp key). -/
def groupOf (fixes : List Fix) (e : ℕ) : List Fix :=
  (fixes.filter (fun f => f.equip = e)).insertionSort timeLE

/-- All trajectories emitted by the `linhas` loop (src/app.py 184–204),
kept as rows.  -/
def trajs (g : ℤ) (fixes : List Fix) : List (List Fix) :=
  (eqKeys fixes).flatMap (fun e => segGroup g (groupOf fixes e))

/-- The contents of the `linhas` list itself: each trajectory projected to
its sequence of positions (`LineString(linha_atual)`). -/
def linhas (g : ℤ) (fixes : List Fix) : List (List Pos) :=
  (trajs g fixes).map (fun t => t.map Fix.pos)

/-- A planar geometry (shapely polygon / multipolygon) modelled as a finite
set of unit grid cells; boolean operations are the finite-set operations. -/
abbrev Region : Type := Finset Pos

/-- `unary_union` over a sequence of geometries. -/
def unionAll (gs : List Region) : Region :=
  gs.foldr (· ∪ ·) ∅

/-- `.area` of a geometry: the number of unit cells, as an exact rational. -/
def area (g : Region) : ℚ :=
  g.card

/-- `area_trabalhada = unary_union(buffer_linhas).intersection(geom_fazenda)`
(src/app.py line 209), taking the already-buffered corridor polygons. -/
def area_trabalhada (corridors : List Region) (boundary : Region) : Region :=
  unionAll corridors ∩ boundary

/-- `area_nao_trabalhada = geom_fazenda.difference(area_trabalhada)`
(src/app.py line 210). -/
def area_nao_trabalhada (corridors : List Region) (boundary : Region) : Region :=
  boundary \ area_trabalhada corridors boundary

/-- `area_total_ha = base_fazenda.geometry.area.sum() / 10000`
(src/app.py line 215): the SUM of the individual boundary rows' areas,
taken over the farm's rows of the cartographic base. -/
def area_total_ha (parts : List Region) : ℚ :=
  (parts.map area).sum / 10000

/-- `area_trab_ha = area_trabalhada.area / 10000` (src/app.py line 216). -/
def area_trab_ha (corridors : List Region) (parts : List Region) : ℚ :=
  area (area_trabalhada corridors (unionAll parts)) / 10000

/-- `area_nao_ha = area_nao_trabalhada.area / 10000` (src/app.py line 217):
the unworked area is RE-MEASURED from the difference polygon. -/
def area_nao_ha (corridors : List Region) (parts : List Region) : ℚ :=
  area (area_nao_trabalhada corridors (unionAll parts)) / 10000

/-- The spec's own formula for the total area (§4.3: "area statistics
always use the union's total area"): the area of `unary_union` of the
boundary parts.  Stated for comparison with `area_total_ha`, which is what
line 215 of the code computes. -/
def area_total_ha_spec (parts : List Region) : ℚ :=
  area (unionAll parts) / 10000

/-- Float division as executed by the statistics block.  The operands are
numpy floats, so a division whose denominator is `0` does not raise: it
yields `nan` (or `inf`) together with a runtime warning.  The embedding
records that outcome as `none`; `none` therefore means "a division by zero
was executed here", and `some q` means the division was well defined with
exact value `q`. -/
def fdiv (a b : ℚ) : Option ℚ :=
  if b = 0 then none else some (a / b)

/-- The per-farm outputs of one iteration of the farm loop: resolved
geometries and the statistics block (src/app.py lines 206–220).  `pctTrab`
and `pctNao` carry the results of the divisions of lines 219–220 under the
`fdiv` model. -/
structure FarmResult where
  worked : Region
  unworked : Region
  areaTotal : ℚ
  areaTrab : ℚ
  areaNao : ℚ
  pctTrab : Option ℚ
  pctNao : Option ℚ
deriving DecidableEq

/-- The geometry-resolution and statistics block of one farm iteration
(src/app.py lines 208–220), taking the already-buffered corridors:
`pct_trab = area_trab_ha / area_total_ha * 100` and its `pct_nao`
counterpart are executed unconditionally. -/
def farmStats (corridors parts : List Region) : FarmResult where
  worked := area_trabalhada corridors (unionAll parts)
  unworked := area_nao_trabalhada corridors (unionAll parts)
  areaTotal := area_total_ha parts
  areaTrab := area_trab_ha corridors parts
  areaNao := area_nao_ha corridors parts
  pctTrab := (fdiv (area_trab_ha corridors parts) (area_total_ha parts)).map (· * 100)
  pctNao := (fdiv (area_nao_ha corridors parts) (area_total_ha parts)).map (· * 100)

/-- One iteration of the farm loop (src/app.py lines 154–220) for a single
farm: the insufficient-data guard `if df_faz.empty or base_fazenda.empty`
(lines 157–159) yields `none` (warning shown, `continue`); otherwise the
trajectories are built, buffered by the geometry library's buffer
capability `buf` (`gdf_linhas.buffer(LARGURA_IMPLEMENTO / 2)`), resolved
against the farm union and the statistics are computed. -/
def processFarm (buf : List Pos → Region) (g : ℤ)
    (fixes : List Fix) (parts : List Region) : Option FarmResult :=
  if fixes = [] ∨ parts = [] then none
  else some (farmStats ((linhas g fixes).map buf) parts)

/-! ## General lemmas about the segmentation walk -/

/-- The pairwise relation that holds between consecutive rows of an emitted
trajectory: time moves forward and by at most the gap threshold. -/
def gapOk (g : ℤ) (a b : Fix) : Prop :=
  a.time ≤ b.time ∧ b.time - a.time ≤ g

/-- Every list emitted by the walk has at least two elements: emission
happens only behind the `len(linha_atual) >= 2` checks. -/
theorem segLoop_two_le_length (g : ℤ) :
    ∀ (rest run : List Fix) (lastT : ℤ) (t : List Fix),
      t ∈ segLoop g rest run lastT → 2 ≤ t.length := by
  intro rest
  induction rest with
  | nil =>
    intro run lastT t ht
    simp only [segLoop] at ht
    split at ht
    · rw [List.mem_singleton] at ht
      subst ht
      assumption
    · simp at ht
  | cons r rest ih =>
    intro run lastT t ht
    simp only [segLoop] at ht
    split at ht
    · exact ih _ _ t ht
    · rcases List.mem_append.mp ht with h1 | h2
      · split at h1
        · rw [List.mem_singleton] at h1
          subst h1
          assumption
        · simp at h1
      · exact ih _ _ t h2

/-- Every list emitted by the walk is a contiguous slice of the pending run
followed by the remaining rows. -/
theorem segLoop_slice (g : ℤ) :
    ∀ (rest run : List Fix) (lastT : ℤ) (t : List Fix),
      t ∈ segLoop g rest run lastT → t <:+: run ++ rest := by
  intro rest
  induction rest with
  | nil =>
    intro run lastT t ht
    simp only [segLoop] at ht
    split at ht
    · rw [List.mem_singleton] at ht
      subst ht
      rw [List.append_nil]
    · simp at ht
  | cons r rest ih =>
    intro run lastT t ht
    simp only [segLoop] at ht
    split at ht
    · have h := ih (run ++ [r]) r.time t ht
      simpa [List.append_assoc] using h
    · rcases List.mem_append.mp ht with h1 | h2
      · have hrun : t = run := by
          split at h1
          · exact List.mem_singleton.mp h1
          · simp at h1
        subst hrun
        exact (List.prefix_append t (r :: rest)).isInfix
      · have h := ih [r] r.time t h2
        exact h.trans (List.suffix_append run (r :: rest)).isInfix

/-- Invariant of the walk: provided the pending run already satisfies
`gapOk`, ends at `ultimo_tempo`, and the remaining rows are time-sorted and
not earlier than `ultimo_tempo`, every emitted trajectory satisfies
`gapOk` between each pair of consecutive rows. -/
theorem segLoop_chain (g : ℤ) :
    ∀ (rest run : List Fix) (lastT : ℤ) (t : List Fix),
      run.Chain' (gapOk g) →
      (∀ x ∈ run.getLast?, x.time = lastT) →
      rest.Chain' timeLE →
      (∀ y ∈ rest.head?, lastT ≤ y.time) →
      t ∈ segLoop g rest run lastT → t.Chain' (gapOk g) := by
  intro rest
  induction rest with
  | nil =>
    intro run lastT t hrun _ _ _ ht
    simp only [segLoop] at ht
    split at ht
    · rw [List.mem_singleton] at ht
      subst ht
      exact hrun
    · simp at ht
  | cons r rest ih =>
    intro run lastT t hrun hlast hsorted hhead ht
    have hr : lastT ≤ r.time := hhead r rfl
    have hs := List.chain'_cons'.mp hsorted
    simp only [segLoop] at ht
    split at ht
    · refine ih (run ++ [r]) r.time t ?_ ?_ hs.2 ?_ ht
      · refine List.chain'_append.mpr ⟨hrun, List.chain'_singleton r, ?_⟩
        intro x hx y hy
        rw [List.head?_cons, Option.mem_some_iff] at hy
        subst hy
        have hx' := hlast x hx
        exact ⟨hx' ▸ hr, by rw [hx']; omega⟩
      · intro x hx
        rw [List.getLast?_concat, Option.mem_some_iff] at hx
        subst hx
        rfl
      · intro y hy
        exact hs.1 y hy
    · rcases List.mem_append.mp ht with h1 | h2
      · have hrun' : t = run := by
          split at h1
          · exact List.mem_singleton.mp h1
          · simp at h1
        subst hrun'
        exact hrun
      · refine ih [r] r.time t (List.chain'_singleton r) ?_ hs.2 ?_ h2
        · intro x hx
          rw [List.getLast?_singleton, Option.mem_some_iff] at hx
          subst hx
          rfl
        · intro y hy
          exact hs.1 y hy

/-- Lift of the three walk lemmas to a whole (already sorted) equipment
group. -/
theorem segGroup_two_le_length (g : ℤ) (l : List Fix) (t : List Fix)
    (ht : t ∈ segGroup g l) : 2 ≤ t.length := by
  cases l with
  | nil => simp [segGroup] at ht
  | cons r rest => exact segLoop_two_le_length g rest [r] r.time t ht

theorem segGroup_slice (g : ℤ) (l : List Fix) (t : List Fix)
    (ht : t ∈ segGroup g l) : t <:+: l := by
  cases l with
  | nil => simp [segGroup] at ht
  | cons r rest => exact segLoop_slice g rest [r] r.time t ht

theorem segGroup_chain (g : ℤ) (l : List Fix) (hl : l.Chain' timeLE)
    (t : List Fix) (ht : t ∈ segGroup g l) : t.Chain' (gapOk g) := by
  cases l with
  | nil => simp [segGroup] at ht
  | cons r rest =>
    have hs := List.chain'_cons'.mp hl
    refine segLoop_chain g rest [r] r.time t (List.chain'_singleton r) ?_ hs.2 ?_ ht
    · intro x hx
      rw [List.getLast?_singleton, Option.mem_some_iff] at hx
      subst hx
      rfl
    · intro y hy
      exact hs.1 y hy

/-- The sorted equipment group is indeed time-sorted. -/
theorem groupOf_sorted (fixes : List Fix) (e : ℕ) :
    List.Sorted timeLE (groupOf fixes e) :=
  List.sorted_insertionSort timeLE _

/-- Membership in the sorted equipment group forces the equipment id. -/
theorem groupOf_equip (fixes : List Fix) (e : ℕ) (f : Fix)
    (hf : f ∈ groupOf fixes e) : f.equip = e := by
  unfold groupOf at hf
  rw [List.mem_insertionSort, List.mem_filter] at hf
  exact of_decide_eq_true hf.2

/-- Every emitted trajectory comes from a single equipment group. -/
theorem trajs_mem (g : ℤ) (fixes : List Fix) (t : List Fix)
    (ht : t ∈ trajs g fixes) :
    ∃ e, e ∈ eqKeys fixes ∧ t ∈ segGroup g (groupOf fixes e) := by
  unfold trajs at ht
  rw [List.mem_flatMap] at ht
  exact ht

/-! ## General lemmas about the region algebra -/

/-- Membership in `unary_union` of a list of geometries. -/
theorem mem_unionAll (gs : List Region) (x : Pos) :
    x ∈ unionAll gs ↔ ∃ s, s ∈ gs ∧ x ∈ s := by
  induction gs with
  | nil => simp [unionAll]
  | cons a gs ih =>
    show x ∈ a ∪ unionAll gs ↔ _
    rw [Finset.mem_union, ih]
    simp

/-- For pairwise disjoint geometries the summed areas equal the union's
area; this is the only situation in which line 215's
`base_fazenda.geometry.area.sum()` agrees with the union's area. -/
theorem sum_area_of_pairwise_disjoint (parts : List Region)
    (h : parts.Pairwise (fun s t => Disjoint s t)) :
    (parts.map area).sum = area (unionAll parts) := by
  induction parts with
  | nil => simp [unionAll, area]
  | cons a parts ih =>
    rw [List.pairwise_cons] at h
    have hd : Disjoint a (unionAll parts) := by
      rw [Finset.disjoint_left]
      intro x hx hx'
      rcases (mem_unionAll parts x).mp hx' with ⟨s, hs, hxs⟩
      exact Finset.disjoint_left.mp (h.1 s hs) hx hxs
    show _ = area (a ∪ unionAll parts)
    rw [List.map_cons, List.sum_cons, ih h.2]
    unfold area
    rw [Finset.card_union_of_disjoint hd]
    push_cast
    ring

/-! ## Concrete fixtures for counterexamples and witnesses -/

/-- A fix of equipment 1 at t = 0 s. -/
def fixA : Fix := ⟨1, 0, (0, 0)⟩

/-- A fix of equipment 1 at t = 30 s. -/
def fixB : Fix := ⟨1, 30, (0, 10)⟩

/-- A fix of equipment 1 at t = 100 s. -/
def fixC : Fix := ⟨1, 100, (0, 50)⟩

/-- A one-cell boundary part at the origin. -/
def cell0 : Region := {((0 : ℤ), (0 : ℤ))}

/-- A one-cell boundary part next to `cell0`. -/
def cell1 : Region := {((1 : ℤ), (0 : ℤ))}

/-! ## Claim theorems -/

/-- C5: the resolver computes `worked = union_all(corridors) ∩ boundary`
(pointwise: a point is worked iff it lies in some corridor and in the
boundary) and `unworked = boundary − worked`; for an empty corridor list
`worked` is the empty geometry and `unworked` is exactly the boundary. -/
theorem C5_resolver (corridors : List Region) (boundary : Region) :
    (∀ x : Pos, x ∈ area_trabalhada corridors boundary ↔
        ((∃ c, c ∈ corridors ∧ x ∈ c) ∧ x ∈ boundary)) ∧
      area_nao_trabalhada corridors boundary =
        boundary \ area_trabalhada corridors boundary ∧
      area_trabalhada [] boundary = ∅ ∧
      area_nao_trabalhada [] boundary = boundary := by
  refine ⟨?_, rfl, ?_, ?_⟩
  · intro x
    unfold area_trabalhada
    rw [Finset.mem_inter, mem_unionAll]
  · unfold area_trabalhada unionAll
    simp
  · unfold area_nao_trabalhada area_trabalhada unionAll
    simp

/-- C6: every trajectory emitted by the `linhas` loop has non-decreasing
timestamps and every gap between consecutive fixes within it is at most
the gap threshold. -/
theorem C6_monotone_gaps (g : ℤ) (fixes : List Fix) (t : List Fix)
    (ht : t ∈ trajs g fixes) :
    t.Chain' (fun a b => a.time ≤ b.time ∧ b.time - a.time ≤ g) := by
  rcases trajs_mem g fixes t ht with ⟨e, _, hseg⟩
  exact segGroup_chain g _ ((groupOf_sorted fixes e).chain') t hseg

/-- C6 witness: the trajectory emitted for fixes at t = 0, 30, 100 s with
threshold 60 s satisfies the gap invariant. -/
theorem C6_witness :
    ([fixA, fixB] ∈ trajs 60 [fixA, fixB, fixC]) ∧
      List.Chain' (fun a b : Fix => a.time ≤ b.time ∧ b.time - a.time ≤ 60)
        [fixA, fixB] :=
  ⟨by decide, C6_monotone_gaps 60 [fixA, fixB, fixC] [fixA, fixB] (by decide)⟩

/-- C7: no emitted `LineString` has fewer than 2 positions: a run of one
position is dropped both at a gap split and at the end of a group. -/
theorem C7_no_singletons (g : ℤ) (fixes : List Fix) (l : List Pos)
    (hl : l ∈ linhas g fixes) : 2 ≤ l.length := by
  unfold linhas at hl
  rw [List.mem_map] at hl
  rcases hl with ⟨t, ht, rfl⟩
  rw [List.length_map]
  rcases trajs_mem g fixes t ht with ⟨e, _, hseg⟩
  exact segGroup_two_le_length g _ t hseg

/-- C7 witness: the single line emitted for the t = 0, 30, 100 s input has
at least 2 positions. -/
theorem C7_witness :
    ([(0, 0), (0, 10)] ∈ linhas 60 [fixA, fixB, fixC]) ∧
      2 ≤ ([((0 : ℤ), (0 : ℤ)), (0, 10)] : List Pos).length :=
  ⟨by decide, C7_no_singletons 60 [fixA, fixB, fixC] [(0, 0), (0, 10)] (by decide)⟩

/-- C8: a fix whose time delta to `ultimo_tempo` equals the threshold
exactly takes the inclusive `delta <= TEMPO_MAX_SEG` branch: it is appended
to the current run, no trajectory is emitted and no new run starts. -/
theorem C8_threshold_extends (g lastT : ℤ) (r : Fix) (rest run : List Fix)
    (h : r.time - lastT = g) :
    segLoop g (r :: rest) run lastT = segLoop g rest (run ++ [r]) r.time := by
  have hle : r.time - lastT ≤ g := le_of_eq h
  simp [segLoop, hle]

/-- C8 witness: a fix exactly 60 s after the previous one extends the run. -/
theorem C8_witness :
    ((⟨1, 60, (0, 1)⟩ : Fix).time - 0 = 60) ∧
      segLoop 60 [⟨1, 60, (0, 1)⟩] [fixA] 0 =
        segLoop 60 [] ([fixA] ++ [⟨1, 60, (0, 1)⟩]) (⟨1, 60, (0, 1)⟩ : Fix).time :=
  ⟨by decide, C8_threshold_extends 60 0 ⟨1, 60, (0, 1)⟩ [] [fixA] (by decide)⟩

/-- C9: for one equipment with fixes at t = 0, 30, 100 s and threshold
60 s, the loop emits exactly one line, with the two positions of the fixes
at t = 0 and t = 30 s; the position of the t = 100 s fix appears in no
emitted line. -/
theorem C9_scenario :
    linhas 60 [fixA, fixB, fixC] = [[(0, 0), (0, 10)]] ∧
      ∀ l ∈ linhas 60 [fixA, fixB, fixC], ((0 : ℤ), (50 : ℤ)) ∉ l := by
  constructor
  · decide
  · decide

/-- C10: every emitted trajectory is a contiguous, order-preserving slice
of the time-sorted fix list of a single equipment unit: every fix in it
belongs to that unit and no fix of the unit is skipped inside the slice. -/
theorem C10_contiguous (g : ℤ) (fixes : List Fix) (t : List Fix)
    (ht : t ∈ trajs g fixes) :
    ∃ e, List.Sorted timeLE (groupOf fixes e) ∧ t <:+: groupOf fixes e ∧
      ∀ f ∈ t, f.equip = e := by
  rcases trajs_mem g fixes t ht with ⟨e, _, hseg⟩
  refine ⟨e, groupOf_sorted fixes e, segGroup_slice g _ t hseg, ?_⟩
  intro f hf
  exact groupOf_equip fixes e f ((segGroup_slice g _ t hseg).mem hf)

/-- C10 witness: the trajectory of the t = 0, 30, 100 s input is a
contiguous slice of equipment 1's sorted fixes. -/
theorem C10_witness :
    ([fixA, fixB] ∈ trajs 60 [fixA, fixB, fixC]) ∧
      ∃ e, List.Sorted timeLE (groupOf [fixA, fixB, fixC] e) ∧
        [fixA, fixB] <:+: groupOf [fixA, fixB, fixC] e ∧
        ∀ f ∈ [fixA, fixB], f.equip = e :=
  ⟨by decide, C10_contiguous 60 [fixA, fixB, fixC] [fixA, fixB] (by decide)⟩

/-- C1 counterexample: with a boundary consisting of two identical (hence
fully overlapping) parts and no corridors, the unworked area re-measured
by line 217 (1/10000 ha, the union's single cell) differs from
`total − worked` (2/10000 − 0 ha, since line 215 sums the two parts), so
the subtraction-based derivation postulated by the claim does not describe
the code. -/
theorem C1_counterexample :
    area_nao_ha [] [cell0, cell0] ≠
      area_total_ha [cell0, cell0] - area_trab_ha [] [cell0, cell0] := by
  simp [area_nao_ha, area_total_ha, area_trab_ha, area, area_trabalhada,
    area_nao_trabalhada, unionAll, cell0]
  norm_num

/-- C1 amended: `area_nao_ha` is obtained by re-measuring the difference
polygon (line 217), not by subtraction; the partition identity
`worked + unworked = total` therefore holds exactly precisely when the
summed areas of the boundary parts equal their union's area (in
particular, for non-overlapping parts), and fails when boundary parts
overlap. -/
theorem C1_partition_identity (corridors parts : List Region)
    (h : (parts.map area).sum = area (unionAll parts)) :
    area_nao_ha corridors parts =
      area_total_ha parts - area_trab_ha corridors parts := by
  have hsub : area_trabalhada corridors (unionAll parts) ⊆ unionAll parts :=
    Finset.inter_subset_right
  simp only [area_nao_ha, area_nao_trabalhada, area_total_ha, area_trab_ha,
    area] at h ⊢
  rw [Finset.cast_card_sdiff hsub, h]
  ring

/-- C1 witness: for a single-part boundary the summed-parts hypothesis
holds and the partition identity follows. -/
theorem C1_witness :
    ([cell0].map area).sum = area (unionAll [cell0]) ∧
      area_nao_ha [cell0] [cell0] =
        area_total_ha [cell0] - area_trab_ha [cell0] [cell0] :=
  ⟨by simp [area, unionAll],
    C1_partition_identity [cell0] [cell0] (by simp [area, unionAll])⟩

/-- C2 counterexample: for a boundary made of two identical (fully
overlapping) parts, the statistics total of line 215 (the SUM of the
parts' areas, 2/10000 ha) is not the union's area (1/10000 ha): the
overlapping part is counted twice. -/
theorem C2_counterexample :
    area_total_ha [cell0, cell0] ≠ area_total_ha_spec [cell0, cell0] := by
  simp [area_total_ha, area_total_ha_spec, area, unionAll, cell0]
  norm_num

/-- C2 amended: the statistics total is the sum of the individual boundary
parts' areas; it coincides with the union's area (the spec's formula)
exactly when the parts are pairwise disjoint, so only non-overlapping
multi-part boundaries avoid double counting. The geometric resolution
itself (line 179) does use the union. -/
theorem C2_total_sums_parts (parts : List Region)
    (h : parts.Pairwise (fun s t => Disjoint s t)) :
    area_total_ha parts = area_total_ha_spec parts := by
  unfold area_total_ha area_total_ha_spec
  rw [sum_area_of_pairwise_disjoint parts h]

/-- C2 witness: two disjoint one-cell parts, whose summed area equals the
union's area. -/
theorem C2_witness :
    ([cell0, cell1] : List Region).Pairwise (fun s t => Disjoint s t) ∧
      area_total_ha [cell0, cell1] = area_total_ha_spec [cell0, cell1] := by
  have h : ([cell0, cell1] : List Region).Pairwise (fun s t => Disjoint s t) := by
    refine List.Pairwise.cons ?_ (List.pairwise_singleton _ _)
    intro s hs
    rw [List.mem_singleton] at hs
    subst hs
    rw [Finset.disjoint_left]
    decide
  exact ⟨h, C2_total_sums_parts [cell0, cell1] h⟩

/-- C3 counterexample: a farm with one fix and a degenerate zero-area
boundary part passes the line 157 guard, and line 219 executes the
percentage division with denominator 0 (numpy: `nan`, modelled `none`):
the result is `some none` — the farm is processed, a division by zero
occurs, and `worked_pct` is not the claimed `0`. -/
theorem C3_counterexample :
    (processFarm (fun _ => ∅) 60 [fixA] [(∅ : Region)]).map FarmResult.pctTrab =
      some none := by
  simp [processFarm, farmStats, linhas, trajs, eqKeys, groupOf, segGroup,
    segLoop, area_trabalhada, area_nao_trabalhada, unionAll, area_total_ha,
    area_trab_ha, area_nao_ha, area, fdiv, fixA]

/-- C3 amended: the division of line 219 is executed unconditionally for
every farm that passes the emptiness guard; when `total_area_ha = 0` the
result `worked_pct` is the undefined float value (NaN, modelled `none`),
not `0`, and when `total_area_ha ≠ 0` it is `worked/total · 100`. -/
theorem C3_division_unguarded (buf : List Pos → Region) (g : ℤ)
    (fixes : List Fix) (parts : List Region) (r : FarmResult)
    (h : processFarm buf g fixes parts = some r) :
    (r.areaTotal = 0 → r.pctTrab = none) ∧
      (r.areaTotal ≠ 0 →
        r.pctTrab = some (r.areaTrab / r.areaTotal * 100)) := by
  unfold processFarm at h
  split at h
  · simp at h
  · rw [Option.some_inj] at h
    subst h
    constructor
    · intro h0
      simp only [farmStats] at h0 ⊢
      simp [fdiv, h0]
    · intro h0
      simp only [farmStats] at h0 ⊢
      simp [fdiv, h0]

/-- C3 witness: a processed farm with nonzero total gets the ordinary
percentage. -/
theorem C3_witness :
    (farmStats [] [cell0]).pctTrab =
      some ((farmStats [] [cell0]).areaTrab / (farmStats [] [cell0]).areaTotal * 100) :=
  (C3_division_unguarded (fun _ => ∅) 60 [fixA] [cell0] (farmStats [] [cell0])
      (by simp [processFarm, linhas, trajs, eqKeys, groupOf, segGroup, segLoop])).2
    (by simp [farmStats, area_total_ha, area, cell0])

/-- C4 counterexample: a farm with exactly one fix yields zero trajectories
after segmentation, yet it passes the `df_faz.empty` guard of line 157:
no insufficient-data report is produced and the full geometry and
statistics block runs (empty worked area, 0 %, 100 % unworked). -/
theorem C4_counterexample :
    trajs 60 [fixA] = [] ∧
      processFarm (fun _ => ∅) 60 [fixA] [cell0] =
        some ⟨∅, cell0, 1 / 10000, 0, 1 / 10000, some 0, some 100⟩ := by
  constructor
  · decide
  · simp [processFarm, farmStats, linhas, trajs, eqKeys, groupOf, segGroup,
      segLoop, area_trabalhada, area_nao_trabalhada, unionAll, area_total_ha,
      area_trab_ha, area_nao_ha, area, fdiv, cell0, fixA]

/-- C4 amended: the insufficient-data path is taken exactly for a farm
with zero (filtered) fixes or zero boundary rows; a farm with at least one
fix whose segmentation yields zero trajectories is NOT reported: it is
fully processed with empty worked geometry and `worked_area_ha = 0`
(statistics included). Farm processing is a pure per-farm function, so
other farms are unaffected either way. -/
theorem C4_insufficient_only_when_empty (buf : List Pos → Region) (g : ℤ)
    (fixes : List Fix) (parts : List Region) :
    (fixes = [] → processFarm buf g fixes parts = none) ∧
      (fixes ≠ [] → parts ≠ [] → trajs g fixes = [] →
        processFarm buf g fixes parts = some (farmStats [] parts) ∧
          (farmStats [] parts).worked = ∅ ∧ (farmStats [] parts).areaTrab = 0) := by
  constructor
  · intro h
    simp [processFarm, h]
  · intro h1 h2 h3
    refine ⟨?_, ?_, ?_⟩
    · simp [processFarm, h1, h2, linhas, h3]
    · simp [farmStats, area_trabalhada, unionAll]
    · simp [farmStats, area_trab_ha, area_trabalhada, unionAll, area]

/-- C4 witness: the one-fix farm instantiates the amended statement. -/
theorem C4_witness :
    ([fixA] ≠ ([] : List Fix)) ∧ ([cell0] ≠ ([] : List Region)) ∧
      trajs 60 [fixA] = [] ∧
      processFarm (fun _ => ∅) 60 [fixA] [cell0] = some (farmStats [] [cell0]) ∧
        (farmStats [] [cell0]).worked = ∅ ∧ (farmStats [] [cell0]).areaTrab = 0 :=
  ⟨by decide, by decide, by decide,
    (C4_insufficient_only_when_empty (fun _ => ∅) 60 [fixA] [cell0]).2
      (by decide) (by decide) (by decide)⟩

end AreaTrabalhada
